import Mathlib

/-!
Shallow embedding of the minti duration-expression interpreter and timer core.

Modelling conventions, used throughout:
- Rust `f64` numbers are modelled as exact rationals (`ℚ`). All numeric
  literals reachable from the claims are exactly representable, and no claim
  depends on floating-point rounding. Overflow of `f64` parsing to infinity
  (possible only for numbers with hundreds of digits) is not modelled.
- `time::Duration` values are modelled as rational numbers of milliseconds.
- Wall-clock time (`OffsetDateTime`) enters the interpreter only through the
  time-of-day of "now"; it is modelled as a rational number of milliseconds
  since midnight and passed explicitly as a `now` parameter. Timer timestamps
  are rational milliseconds on an absolute axis.
- Rust iterators over literal strings (`InputIter` / `DurationsOrInt`) are
  modelled as `List String`; `next()` on the n-th call corresponds to `l[n]?`.
- `usize` is modelled as 64-bit, so `u64 -> usize` saturating casts are the
  identity on values at most `u64Max`.
-/

namespace Minti

/-- The interpreter error enum (`interpreter::Error`), including the variants
used by the Pratt-parser module (`MulDurations`, `InvalidOp`, `InvalidValue`). -/
inductive Err where
  | NaN
  | InvalidCharacter (c : Char)
  | InvalidNumber (s : String)
  | InvalidUnit (s : String)
  | SmallerThanMilli (n : ℚ)
  | ClashingFormats
  | TooManySeparators
  | Empty
  | Unknown
  | UnbalancedParens
  | InvalidOp (s : String)
  | InvalidValue (s : String)
  | MulDurations
deriving DecidableEq, Repr

/-- `time::units::TimeUnit`. -/
inductive TimeUnit where
  | milli
  | sec
  | min
  | hour
  | day
deriving DecidableEq, Repr

/-- `TimeUnit::numeric_value`. -/
def TimeUnit.numeric_value : TimeUnit → Nat
  | .milli => 0
  | .sec => 1
  | .min => 2
  | .hour => 3
  | .day => 4

/-- `TimeUnit::number_to_variant`. -/
def TimeUnit.number_to_variant (n : Nat) : Option TimeUnit :=
  if n = 0 then some .milli
  else if n = 1 then some .sec
  else if n = 2 then some .min
  else if n = 3 then some .hour
  else if n = 4 then some .day
  else none

/-- `TimeUnit::larger_unit` (`u8` saturating add modelled by `Nat.min _ 255`). -/
def TimeUnit.larger_unit (u : TimeUnit) : Option TimeUnit :=
  TimeUnit.number_to_variant (Nat.min (u.numeric_value + 1) 255)

/-- `TimeUnit::smaller_unit` (`u8` wrapping sub modelled by `(v + 255) % 256`). -/
def TimeUnit.smaller_unit (u : TimeUnit) : Option TimeUnit :=
  TimeUnit.number_to_variant ((u.numeric_value + 255) % 256)

/-- `TimeUnit::to_duration`; durations are rational milliseconds. -/
def TimeUnit.to_duration (u : TimeUnit) (v : ℚ) : ℚ :=
  match u with
  | .milli => v
  | .sec => 1000 * v
  | .min => 60000 * v
  | .hour => 3600000 * v
  | .day => 86400000 * v

def milliTokens : List String :=
  ["ms", "milli", "millis", "millisec", "millisecs", "millisecond", "milliseconds"]
def secTokens : List String := ["s", "sec", "secs", "second", "seconds"]
def minTokens : List String := ["m", "min", "mins", "minute", "minutes"]
def hourTokens : List String := ["h", "hr", "hrs", "hour", "hours"]
def dayTokens : List String := ["d", "day", "days"]

/-- `TimeUnit::from_str` (success cases; failure is `InvalidUnit` at the caller). -/
def TimeUnit.fromString (s : String) : Option TimeUnit :=
  if s ∈ milliTokens then some .milli
  else if s ∈ secTokens then some .sec
  else if s ∈ minTokens then some .min
  else if s ∈ hourTokens then some .hour
  else if s ∈ dayTokens then some .day
  else none

/-- `time::meridiem::Meridiem`. -/
inductive Meridiem where
  | ante
  | post
deriving DecidableEq, Repr

def amTokens : List String := ["am", "a.m."]
def pmTokens : List String := ["pm", "p.m."]

/-- `Meridiem::from_str` (success cases). -/
def Meridiem.fromString (s : String) : Option Meridiem :=
  if s ∈ amTokens then some .ante
  else if s ∈ pmTokens then some .post
  else none

/-- `time::Time::from_hms`, as milliseconds since midnight. -/
def from_hms (hh mm ss : Nat) : Option ℚ :=
  if hh ≤ 23 ∧ mm ≤ 59 ∧ ss ≤ 59 then
    some ((3600000 * hh + 60000 * mm + 1000 * ss : Nat) : ℚ)
  else none

/-- `meridiem::new_12h_time`. -/
def new_12h_time (hh mm ss : Nat) (meri : Meridiem) : Option ℚ :=
  if 12 < hh then none
  else
    match meri with
    | .ante => from_hms (if hh = 12 then 0 else hh) mm ss
    | .post => from_hms (if hh = 12 then 12 else hh + 12) mm ss

/-- `relative::duration_until_time`: duration (ms) from `now` (time of day in
ms since midnight) until the next occurrence of time-of-day `target`. Same day
if `now < target`, otherwise the next day. -/
def duration_until_time (target now : ℚ) : ℚ :=
  if now < target then target - now else target + 86400000 - now

/-- `lexer::GroupKind`. -/
inductive GroupKind where
  | number
  | text
  | separator
deriving DecidableEq, Repr

/-- `lexer::Group`; the string is kept as a character list. -/
structure Group where
  variant : GroupKind
  string : List Char
deriving DecidableEq, Repr

/-- `GroupKind::try_from(char)`. -/
def groupKindOf (c : Char) : Except Err GroupKind :=
  if c.isAlpha then .ok .text
  else if c.isDigit ∨ c = '.' then .ok .number
  else if c = ':' then .ok .separator
  else .error (.InvalidCharacter c)

/-- Rust `char::to_ascii_lowercase`. -/
def asciiLower (c : Char) : Char :=
  if 65 ≤ c.toNat ∧ c.toNat ≤ 90 then Char.ofNat (c.toNat + 32) else c

/-- Grouping loop of `lexer::lex`: consecutive characters of the same kind
merge into one group, except separators, which always start a new group.
Written back-to-front: a character joins the group of the character after it
exactly when the Rust loop would have extended the previous group. -/
def lexGo : List Char → Except Err (List Group)
  | [] => .ok []
  | c :: rest => do
    let k ← groupKindOf c
    let gs ← lexGo rest
    match gs with
    | g :: t =>
      if g.variant = k ∧ k ≠ .separator then
        pure ({ variant := k, string := c :: g.string } :: t)
      else
        pure ({ variant := k, string := [c] } :: g :: t)
    | [] => pure [{ variant := k, string := [c] }]

/-- `lexer::lex`: lowercase, strip spaces, then group. -/
def lexSingle (input : String) : Except Err (List Group) :=
  lexGo ((input.data.map asciiLower).filter (fun c => c ≠ ' '))

/-- `parser::Token`. -/
inductive Token where
  | number (n : ℚ)
  | unit (u : TimeUnit)
  | meridiem (m : Meridiem)
  | separator
deriving DecidableEq, Repr

def digitVal (c : Char) : Nat := c.toNat - 48

def parseNatDigits (cs : List Char) : Nat :=
  cs.foldl (fun a c => 10 * a + digitVal c) 0

/-- Split a character list at the first occurrence of `sep`. -/
def splitFirst (sep : Char) : List Char → List Char × Option (List Char)
  | [] => ([], none)
  | c :: rest =>
    if c = sep then ([], some rest)
    else
      let p := splitFirst sep rest
      (c :: p.1, p.2)

/-- Rust `str::parse::<f64>` restricted to the characters a number group can
contain (digits and dots): at most one dot, at least one digit, value exact. -/
def parseNumber (cs : List Char) : Option ℚ :=
  match splitFirst '.' cs with
  | (intp, none) =>
    if intp ≠ [] ∧ intp.all Char.isDigit then some ((parseNatDigits intp : Nat) : ℚ)
    else none
  | (intp, some rest) =>
    match splitFirst '.' rest with
    | (frac, none) =>
      if (intp ≠ [] ∨ frac ≠ []) ∧ intp.all Char.isDigit ∧ frac.all Char.isDigit then
        some (((parseNatDigits intp : Nat) : ℚ) +
          ((parseNatDigits frac : Nat) : ℚ) / (10 : ℚ) ^ frac.length)
      else none
    | (_, some _) => none

/-- `Token::try_from(Group)`. The NaN/infinity rejection of the Rust code is
vacuous in the exact-rational model. -/
def tokenOfGroup (g : Group) : Except Err Token :=
  match g.variant with
  | .number =>
    match parseNumber g.string with
    | some q => .ok (.number q)
    | none => .error (.InvalidNumber (String.mk g.string))
  | .text =>
    let s := String.mk g.string
    match TimeUnit.fromString s with
    | some u => .ok (.unit u)
    | none =>
      match Meridiem.fromString s with
      | some m => .ok (.meridiem m)
      | none => .error (.InvalidUnit s)
  | .separator => .ok .separator

/-- `parser::parse`. -/
def parseTokens (gs : List Group) : Except Err (List Token) :=
  gs.mapM tokenOfGroup

/-- `eval::InputFormat`. -/
inductive InputFormat where
  | singleNumber
  | time
  | units
deriving DecidableEq, Repr

def Token.isMeridiem : Token → Bool
  | .meridiem _ => true
  | _ => false

/-- `eval::get_tokens_format`. -/
def get_tokens_format (ts : List Token) : InputFormat :=
  if ts.length = 1 then .singleNumber
  else if ts.contains .separator ∨ ts.any Token.isMeridiem then .time
  else .units

/-- `eval::eval_single_number`: the single token as minutes. -/
def eval_single_number (ts : List Token) : Except Err ℚ :=
  match ts.head? with
  | some (.number n) => .ok (60000 * n)
  | _ => .error .Empty

/-- State-passing loop of `eval::eval_units`: `(total, current)` accumulator. -/
def evalUnitsScan : List Token → ℚ → ℚ → Except Err (ℚ × ℚ)
  | [], total, current => .ok (total, current)
  | .number n :: rest, total, _ => evalUnitsScan rest total n
  | .unit u :: rest, total, current => evalUnitsScan rest (total + u.to_duration current) current
  | _ :: _, _, _ => .error .ClashingFormats

/-- `eval::eval_units`: scan, then fold a trailing bare number into the unit
one step below the preceding unit. (In Rust, `tokens[tokens.len() - 2]` on a
single-element list would panic; that point is unreachable from `eval`, which
routes single-token lists to the single-number format. The model's `Nat`
subtraction yields `Unknown` there instead.) -/
def eval_units (ts : List Token) : Except Err ℚ := do
  let p ← evalUnitsScan ts 0 0
  match ts.getLast? with
  | some (.number n) =>
    match ts[ts.length - 2]? with
    | some (.unit u) =>
      match u.smaller_unit with
      | some su => .ok (p.1 + su.to_duration n)
      | none => .error (.SmallerThanMilli n)
    | _ => .error .Unknown
  | _ => .ok p.1

/-- `f64 as u8` with saturation (`SaturatingAs`), for integral rationals. -/
def satU8 (q : ℚ) : Nat :=
  if q ≤ 0 then 0 else if 255 ≤ q then 255 else q.num.toNat

/-- Write `v` into slot `cur` of the `[hour, min, sec]` sections. -/
def setSection (secs : Nat × Nat × Nat) (cur v : Nat) : Nat × Nat × Nat :=
  if cur = 0 then (v, secs.2.1, secs.2.2)
  else if cur = 1 then (secs.1, v, secs.2.2)
  else (secs.1, secs.2.1, v)

/-- The token loop of `eval::eval_time`: fills the `[hour, min, sec]` sections,
records at most one meridiem with nothing after it, and rejects more than two
separators and any token foreign to the time format. -/
def evalTimeScan :
    List Token → Nat → Nat × Nat × Nat → Option Meridiem →
    Except Err ((Nat × Nat × Nat) × Option Meridiem)
  | [], _, secs, meri => .ok (secs, meri)
  | t :: rest, cur, secs, meri =>
    if meri.isSome then .error .Unknown
    else
      match t with
      | .separator =>
        if 2 < cur + 1 then .error .TooManySeparators
        else evalTimeScan rest (cur + 1) secs meri
      | .number n =>
        if n.den = 1 then evalTimeScan rest cur (setSection secs cur (satU8 n)) meri
        else .error (.InvalidNumber (toString n))
      | .meridiem m => evalTimeScan rest cur secs (some m)
      | .unit _ => .error .ClashingFormats

/-- `eval::eval_time`: scan the tokens, then resolve against the clock. With a
meridiem the 12-hour time is normalized and its next occurrence used; without
one, the closer of the AM and PM occurrences wins. -/
def eval_time (now : ℚ) (ts : List Token) : Except Err ℚ := do
  let r ← evalTimeScan ts 0 (0, 0, 0) none
  let hh := r.1.1
  let mm := r.1.2.1
  let ss := r.1.2.2
  match r.2 with
  | some meri =>
    match new_12h_time hh mm ss meri with
    | some t => .ok (duration_until_time t now)
    | none => .error .Unknown
  | none =>
    match new_12h_time hh mm ss .ante with
    | none => .error .Unknown
    | some ta =>
      match new_12h_time hh mm ss .post with
      | none => .error .Unknown
      | some tp => .ok (min (duration_until_time ta now) (duration_until_time tp now))

/-- `eval::eval`: empty check, format selection, dispatch. -/
def evalTokens (now : ℚ) (ts : List Token) : Except Err ℚ :=
  if ts.isEmpty then .error .Empty
  else
    match get_tokens_format ts with
    | .singleNumber => eval_single_number ts
    | .time => eval_time now ts
    | .units => eval_units ts

/-- `interpreter::interpret_single` with the wall clock passed explicitly. -/
def interpret_single (now : ℚ) (input : String) : Except Err ℚ := do
  let gs ← lexSingle input
  let ts ← parseTokens gs
  evalTokens now ts

/-! ### The multi-expression (Pratt) parser and evaluator, `interpreter::multi` -/

/-- `u64::MAX`. -/
def u64Max : Nat := 18446744073709551615

def digitChar (d : Nat) : Char := Char.ofNat (48 + d)

/-- Digit expansion used by `u64::to_string`; the first argument is recursion
fuel, always called with fuel exceeding the value. -/
def natDigitsAux : Nat → Nat → List Char
  | 0, _ => []
  | fuel + 1, n =>
    if n < 10 then [digitChar n]
    else natDigitsAux fuel (n / 10) ++ [digitChar (n % 10)]

/-- Rust `u64::to_string`. -/
def u64str (n : Nat) : String := String.mk (natDigitsAux (n + 1) n)

/-- `multi::Op`. -/
inductive MOp where
  | add
  | mul
  | lparen
  | rparen
deriving DecidableEq, Repr

/-- `multi::Value`: a duration literal substring or a bare `u64`. -/
inductive MValue where
  | duration (s : String)
  | int (n : Nat)
deriving DecidableEq, Repr

/-- `multi::Token`. -/
inductive MToken where
  | value (v : MValue)
  | op (o : MOp)
  | eof
deriving DecidableEq, Repr

def MToken.isValue : MToken → Bool
  | .value _ => true
  | _ => false

/-- Rust `u64::from_str` on a trimmed segment (the segment cannot contain a
leading `+`, since input is split at every `+`). -/
def parseU64 (cs : List Char) : Option Nat :=
  if cs ≠ [] ∧ cs.all Char.isDigit then
    let n := parseNatDigits cs
    if n ≤ u64Max then some n else none
  else none

/-- `multi::Token::from(&str)`. -/
def mTokenOf (cs : List Char) : MToken :=
  if cs = ['+'] then .op .add
  else if cs = ['*'] then .op .mul
  else if cs = ['('] then .op .lparen
  else if cs = [')'] then .op .rparen
  else if cs = [Char.ofNat 0] then .eof
  else
    match parseU64 cs with
    | some n => .value (.int n)
    | none => .value (.duration (String.mk cs))

def mopChars : List Char := ['+', '*', '(', ')', Char.ofNat 0]

/-- `str::split_inclusive` on the operator characters: each segment ends with
a delimiter, a final delimiter-less remainder is kept as its own segment. -/
def splitInclusive : List Char → List (List Char)
  | [] => []
  | c :: rest =>
    if c ∈ mopChars then [c] :: splitInclusive rest
    else
      match splitInclusive rest with
      | [] => [[c]]
      | seg :: segs => (c :: seg) :: segs

def isWsp (c : Char) : Bool := c = ' ' ∨ c = '\t' ∨ c = '\n' ∨ c = '\r'

/-- Rust `str::trim` (whitespace relevant to this grammar). -/
def trimChars (cs : List Char) : List Char :=
  ((cs.dropWhile isWsp).reverse.dropWhile isWsp).reverse

/-- One step of the `tuple_windows` normalization in `Lexer::new`: insert an
implicit `*` between a value/`)` and a `(`/value, and turn a `*` followed by
neither `(` nor a value into `* u64::MAX` (the trailing-star repeat marker). -/
def normStep (curr next : MToken) : List MToken :=
  if (curr = .op .rparen ∧ next.isValue) ∨ (curr.isValue ∧ next = .op .lparen) then
    [curr, .op .mul]
  else if curr = .op .mul ∧ ¬(next = .op .lparen ∨ next.isValue = true) then
    [curr, .value (.int u64Max)]
  else [curr]

/-- The `tuple_windows.flat_map` pass; drops the final token (always the
appended `Eof`, which the token stream represents implicitly). -/
def normalize : List MToken → List MToken
  | c :: n :: rest => normStep c n ++ normalize (n :: rest)
  | _ => []

/-- `multi::Lexer::new`: append `\0`, split inclusively on operators, separate
each delimiter from its preceding text, trim, drop empties, tokenize, then
normalize adjacent pairs. -/
def lexMulti (input : String) : List MToken :=
  normalize
    (((((splitInclusive (input.data ++ [Char.ofNat 0])).flatMap
      (fun seg => [seg.dropLast, seg.drop (seg.length - 1)])).map
        trimChars).filter (fun cs => cs ≠ [])).map mTokenOf)

/-- `Lexer::next`: pop the next token, `Eof` when exhausted. -/
def mnext : List MToken → MToken × List MToken
  | [] => (.eof, [])
  | t :: ts => (t, ts)

/-- `Lexer::peek`. -/
def mpeek : List MToken → MToken
  | [] => .eof
  | t :: _ => t

/-- The operators an `SExpr::Cons` can actually hold: `expr_bp` only builds
nodes from operators that have an infix binding power. -/
inductive SOp where
  | add
  | mul
deriving DecidableEq, Repr

/-- `multi::SExpr`. -/
inductive SExpr where
  | atom (v : MValue)
  | cons (op : SOp) (l r : SExpr)
deriving DecidableEq, Repr

/-- `multi::infix_binding_power`, also resolving the `SExpr` operator. -/
def bindingPower : MOp → Option (SOp × Nat × Nat)
  | .add => some (.add, 1, 2)
  | .mul => some (.mul, 3, 4)
  | _ => none

def mopStr : MOp → String
  | .add => "+"
  | .mul => "*"
  | .lparen => "("
  | .rparen => ")"

/-- `Display` for `multi::Token`, used in error payloads. -/
def mtokenStr : MToken → String
  | .value (.duration s) => s
  | .value (.int n) => u64str n
  | .op o => mopStr o
  | .eof => "eof"

/-- `multi::expr_bp`. The binding-power recursion is driven by fuel (first
argument); the Rust loop around the left-hand side appears as the
`some lhs` mode, the prefix parse as the `none` mode. `Lexer::next`/`peek`
are inlined as list-head patterns: an empty token list reads as `Eof`, which
is never consumed. Each call site consumes input, so any fuel above twice
the token count is enough; universally quantified facts below only assume a
successful run. -/
def pratt : Nat → Option SExpr → List MToken → Nat → Except Err (SExpr × List MToken)
  | 0, _, _, _ => .error .Unknown
  | Nat.succ _, none, [], _ => .error .Empty
  | Nat.succ _, none, .eof :: _, _ => .error .Empty
  | Nat.succ fuel, none, .op .lparen :: ts1, minBp =>
    match pratt fuel none ts1 0 with
    | .error e => .error e
    | .ok (lhs, ts2) =>
      match ts2 with
      | .op .rparen :: ts3 => pratt fuel (some lhs) ts3 minBp
      | _ => .error .UnbalancedParens
  | Nat.succ fuel, none, .value v :: ts1, minBp => pratt fuel (some (.atom v)) ts1 minBp
  | Nat.succ _, none, .op o :: _, _ => .error (.InvalidOp (mopStr o))
  | Nat.succ _, some lhs, [], _ => .ok (lhs, [])
  | Nat.succ _, some lhs, .eof :: ts1, _ => .ok (lhs, .eof :: ts1)
  | Nat.succ fuel, some lhs, .op o :: ts1, minBp =>
    match bindingPower o with
    | none => .ok (lhs, .op o :: ts1)
    | some (sop, lbp, rbp) =>
      if lbp < minBp then .ok (lhs, .op o :: ts1)
      else
        match pratt fuel none ts1 rbp with
        | .ok (rhs, ts2) => pratt fuel (some (.cons sop lhs rhs)) ts2 minBp
        | .error .Empty => .error (.InvalidOp (mopStr o))
        | .error e => .error e
  | Nat.succ _, some lhs, .value v :: ts1, _ =>
    .error (.InvalidValue (mtokenStr (.value v)))

/-- The validation loop at the top of `multi::parse`: every duration-literal
token must itself interpret as a single duration, errors propagating. -/
def validateTokens (now : ℚ) : List MToken → Except Err Unit
  | [] => .ok ()
  | .value (.duration s) :: rest => do
    let _ ← interpret_single now s
    validateTokens now rest
  | _ :: rest => validateTokens now rest

/-- `multi::parse`: lex, validate every duration literal, run the Pratt
parser, and require the remaining input to be exactly `Eof`. -/
def mparse (now : ℚ) (input : String) : Except Err SExpr := do
  let tokens := lexMulti input
  let _ ← validateTokens now tokens
  let p ← pratt (2 * tokens.length + 4) none tokens 0
  if mpeek p.2 = .eof then pure p.1 else .error .UnbalancedParens

/-- `multi::DurationsOrInt`, with the lazy cloneable iterator modelled as the
list of literals it yields. -/
inductive DurationsOrInt where
  | durations (l : List String)
  | int (n : Nat)
deriving DecidableEq, Repr

/-- `DurationsOrInt::into_durations` (also `From<DurationsOrInt> for InputIter`). -/
def DurationsOrInt.into_durations : DurationsOrInt → List String
  | .durations l => l
  | .int n => [u64str n]

/-- `DurationsOrInt::join`. -/
def DurationsOrInt.join (a b : DurationsOrInt) : DurationsOrInt :=
  .durations (a.into_durations ++ b.into_durations)

def DurationsOrInt.isDurations : DurationsOrInt → Bool
  | .durations _ => true
  | .int _ => false

/-- `multi::eval`. The `iter::repeat_n(_, int.saturating_as::<usize>())`
repetition keeps the exact `u64` count (64-bit `usize`). -/
def evalM : SExpr → Except Err DurationsOrInt
  | .atom (.duration s) => .ok (.durations [s])
  | .atom (.int n) => .ok (.int n)
  | .cons op l r => do
    let dl ← evalM l
    let dr ← evalM r
    match op with
    | .add => .ok (dl.join dr)
    | .mul =>
      match dl, dr with
      | .durations _, .durations _ => .error .MulDurations
      | .durations d, .int n => .ok (.durations (List.replicate n d).flatten)
      | .int n, .durations d => .ok (.durations (List.replicate n d).flatten)
      | .int a, .int b => .ok (.durations (List.replicate b (u64str a)))

/-- `multi::interpret_multi`: the resulting `InputIter` as the full list of
literals it will yield. -/
def interpret_multi (now : ℚ) (input : String) : Except Err (List String) := do
  let e ← mparse now input
  let d ← evalM e
  pure d.into_durations

/-! ### The timer state machine, `timer.rs`

Reactive signals are modelled as plain record fields; `now()` is passed
explicitly, in rational milliseconds on an absolute axis. The `after_finish`
hook is wired by the UI layer and modelled as absent, so
`update_time_remaining` is the plain signal refresh. Operations whose Rust
counterpart can panic on an internal `unwrap` return `Option` with `none` for
the panic. -/

/-- `timer::RawTimer`: durations and timestamps in rational milliseconds. -/
structure RawTimer where
  duration : Option ℚ
  start_time : Option ℚ
  last_pause_time : Option ℚ
  acc_paused_duration : ℚ
  time_remaining : Option ℚ
  end_time : Option ℚ
deriving DecidableEq, Repr

/-- `RawTimer::new`: unstarted, all bookkeeping cleared. -/
def RawTimer.new : RawTimer :=
  { duration := none, start_time := none, last_pause_time := none,
    acc_paused_duration := 0, time_remaining := none, end_time := none }

/-- The `started` memo: a start time exists. -/
def RawTimer.started (s : RawTimer) : Bool := s.start_time.isSome

/-- The `paused` memo: started and a pause time exists. -/
def RawTimer.paused (s : RawTimer) : Bool := s.started && s.last_pause_time.isSome

/-- The `running` memo: started and not paused. -/
def RawTimer.running (s : RawTimer) : Bool := s.started && !s.paused

/-- The `finished` memo: the `time_remaining` signal holds a non-positive
valueation (`is_some_and(|dur| !dur.is_positive())`). -/
def RawTimer.finished (s : RawTimer) : Bool :=
  match s.time_remaining with
  | some d => decide (d ≤ 0)
  | none => false

/-- `RawTimer::get_time_elapsed`. -/
def RawTimer.get_time_elapsed (now : ℚ) (s : RawTimer) : ℚ :=
  match s.start_time with
  | none => 0
  | some st => (s.last_pause_time.getD now - st) - s.acc_paused_duration

/-- `RawTimer::get_time_remaining`. -/
def RawTimer.get_time_remaining (now : ℚ) (s : RawTimer) : Option ℚ :=
  s.duration.map (fun d => d - s.get_time_elapsed now)

/-- `RawTimer::update_time_remaining` (with no `after_finish` hook attached). -/
def RawTimer.update_time_remaining (now : ℚ) (s : RawTimer) : RawTimer :=
  { s with time_remaining := s.get_time_remaining now }

/-- `RawTimer::get_end_time`. -/
def RawTimer.get_end_time (now : ℚ) (s : RawTimer) : Option ℚ :=
  if s.started then (s.get_time_remaining now).map (fun d => now + d) else none

/-- `RawTimer::update_end_time`. -/
def RawTimer.update_end_time (now : ℚ) (s : RawTimer) : RawTimer :=
  { s with end_time := s.get_end_time now }

/-- `RawTimer::reset`. -/
def RawTimer.reset (now : ℚ) (s : RawTimer) : RawTimer :=
  RawTimer.update_time_remaining now
    { s with start_time := none, last_pause_time := none,
             acc_paused_duration := 0, duration := none }

/-- `RawTimer::start`. -/
def RawTimer.start (now : ℚ) (d : ℚ) (s : RawTimer) : RawTimer :=
  { s with start_time := some now, duration := some d }

/-- `RawTimer::restart` = `reset` then `start`, batched. -/
def RawTimer.restart (now : ℚ) (d : ℚ) (s : RawTimer) : RawTimer :=
  (s.reset now).start now d

/-- `RawTimer::pause`: no-op when already paused. -/
def RawTimer.pause (now : ℚ) (s : RawTimer) : RawTimer :=
  if s.paused then s else { s with last_pause_time := some now }

/-- `RawTimer::resume`: no-op when not paused; otherwise folds the current
pause into the accumulator and clears the pause time. The inner `none` branch
is unreachable because `paused` implies a pause time exists. -/
def RawTimer.resume (now : ℚ) (s : RawTimer) : RawTimer :=
  if s.paused then
    match s.last_pause_time with
    | some lp =>
      { s with acc_paused_duration := s.acc_paused_duration + (now - lp),
               last_pause_time := none }
    | none => s
  else s

/-- `RawTimer::add_duration`; `none` models a panic of one of the internal
`unwrap`/`expect` calls on `duration`/`get_time_remaining`. The early `return`
in the negative-while-finished case skips the trailing signal refreshes. -/
def RawTimer.add_duration (now delta : ℚ) (s : RawTimer) : Option RawTimer :=
  if s.started then
    if delta < 0 then
      if s.finished then some s
      else
        match s.get_time_remaining now with
        | none => none
        | some rem =>
          if rem ≤ -delta then
            match s.duration with
            | none => none
            | some dur =>
              let s1 := s.resume now
              let s2 := { s1 with duration := some (dur - rem) }
              some (RawTimer.update_time_remaining now (RawTimer.update_end_time now s2))
          else
            match s.duration with
            | none => none
            | some dur =>
              some (RawTimer.update_time_remaining now (RawTimer.update_end_time now
                { s with duration := some (dur + delta) }))
    else if 0 < delta then
      if s.finished then
        some (RawTimer.update_time_remaining now (RawTimer.update_end_time now
          (s.restart now delta)))
      else
        match s.duration with
        | none => none
        | some dur =>
          some (RawTimer.update_time_remaining now (RawTimer.update_end_time now
            { s with duration := some (dur + delta) }))
    else
      some (RawTimer.update_time_remaining now (RawTimer.update_end_time now s))
  else some s

/-! ### The multi-timer and the persistence codec, `timer.rs` / `timer/serialize.rs` -/

/-- `timer::RawMultiTimer` (reactive plumbing and the UUID omitted); the
`InputIter` cursor is the list of literals not yet consumed. -/
structure MT where
  current : RawTimer
  iter : List String
  input : String
  title : String
  consumed : Nat
deriving DecidableEq, Repr

/-- `MultiTimer::new`. -/
def MT.new : MT := { current := RawTimer.new, iter := [], input := "", title := "", consumed := 0 }

/-- `MultiTimer::next`: pull one literal; when present, parse it (the
`expect("input has already been validated")` panic is `none`), restart the
current timer with it and count the advance; when exhausted, do nothing. -/
def MT.next (now : ℚ) (t : MT) : Option MT :=
  match t.iter with
  | [] => some t
  | lit :: rest =>
    match interpret_single now lit with
    | .ok d =>
      some { t with iter := rest, consumed := t.consumed + 1,
                    current := t.current.restart now d }
    | .error _ => none

/-- `MultiTimer::start` (private): install the iterator, then advance once.
Must be called with `consumed = 0`. -/
def MT.start (now : ℚ) (iter : List String) (t : MT) : Option MT :=
  MT.next now { t with iter := iter }

/-- Repeated `next()`, as in the decode replay loop `(1..consumed).for_each`. -/
def iterNext (now : ℚ) : Nat → MT → Option MT
  | 0, t => some t
  | k + 1, t => (MT.next now t).bind (iterNext now k)

/-- `serialize::TimerJson`: the stored snapshot record. -/
structure TimerJson where
  duration : Option Nat
  start : Option Int
  last_pause : Option Int
  acc_pause_duration : Nat
  duration_input : String
  title : String
  consumed : Nat
deriving DecidableEq, Repr

def i64Max : Int := 9223372036854775807

/-- `u64 as i64` with saturation (`SaturatingAs`). -/
def satI64 (n : Nat) : Int := if (n : Int) ≤ i64Max then (n : Int) else i64Max

/-- `timestamp::from_unix_millis` / `i64::milliseconds`: milliseconds stay
milliseconds in the rational model. -/
def millisQ (n : Int) : ℚ := (n : ℚ)

/-- The replay block of the decode closure: when `consumed` is non-zero,
`start()` (which advances once) followed by `consumed - 1` calls to `next()`. -/
def replay (now : ℚ) (e : TimerJson) (lits : List String) (t0 : MT) : Option MT :=
  if e.consumed ≠ 0 then MT.start now lits t0 >>= iterNext now (e.consumed - 1)
  else some t0

/-- The start-override block of the decode closure: when a start timestamp is
stored, start the timer with the stored duration (absent duration discards the
entry, via the `unparsed.duration?` early return) and overwrite the start
timestamp with the stored one. -/
def startOverride (now : ℚ) (e : TimerJson) (t1 : MT) : Option MT :=
  match e.start with
  | some st =>
    e.duration.bind fun d =>
      some { t1 with current :=
        { t1.current.start now (millisQ (satI64 d)) with start_time := some (millisQ st) } }
  | none => some t1

/-- The pause-override block of the decode closure: a stored pause on a timer
that is not started (after replay and start override) discards the entry;
otherwise pause and overwrite the pause timestamp with the stored one. -/
def pauseOverride (now : ℚ) (e : TimerJson) (t2 : MT) : Option MT :=
  match e.last_pause with
  | some lp =>
    if t2.current.started then
      some { t2 with current :=
        { (t2.current.pause now) with last_pause_time := some (millisQ lp) } }
    else none
  | none => some t2

/-- The tail of the decode closure: install the stored accumulated-pause
duration and refresh the `time_remaining` and `end_time` signals. -/
def finalizeEntry (now : ℚ) (e : TimerJson) (t3 : MT) : MT :=
  { t3 with current :=
    RawTimer.update_end_time now (RawTimer.update_time_remaining now
      { t3.current with acc_paused_duration := millisQ (satI64 e.acc_pause_duration) }) }

/-- The per-entry body of `serialize::parse_timer_json` (`filter_map` closure):
re-interpret the stored input, replay `consumed` advances, discard on a
replay-count mismatch, then overwrite the timer's timestamps with the stored
values; a stored pause with an unstarted replayed timer is discarded. -/
def parseEntry (now : ℚ) (e : TimerJson) : Option MT :=
  (interpret_multi now e.duration_input).toOption.bind fun lits =>
  (replay now e lits { MT.new with input := e.duration_input, title := e.title }).bind fun t1 =>
  if e.consumed ≠ t1.consumed then none
  else
    (startOverride now e t1).bind fun t2 =>
    (pauseOverride now e t2).bind fun t3 =>
    some (finalizeEntry now e t3)

/-- `serialize::parse_timer_json` on an already-deserialized record list:
invalid entries are dropped, the rest load. -/
def parse_timer_json (now : ℚ) (entries : List TimerJson) : List MT :=
  entries.filterMap (parseEntry now)

/-! ## Generic helper lemmas -/

@[simp]
theorem exbind_ok {ε α β : Type} (a : α) (f : α → Except ε β) :
    ((Except.ok a : Except ε α) >>= f) = f a := rfl

@[simp]
theorem exbind_error {ε α β : Type} (e : ε) (f : α → Except ε β) :
    ((Except.error e : Except ε α) >>= f) = Except.error e := rfl

@[simp]
theorem exmap_ok {ε α β : Type} (a : α) (f : α → β) :
    (Except.ok a : Except ε α).map f = Except.ok (f a) := rfl

/-! ## Claim C2: enumeration semantics of the multi-expression evaluator -/

/-- C2: the multi-expression evaluator enumerates literals by: `Add` =
left-to-right concatenation, `Mul` with one `Int` side = that many in-order
repetitions of the other side, `Int * Int` = the left operand's digit text
repeated the right operand's count times; in particular `"3*2m"` yields
`"2m"` three times, `"(10m+45)*3"` yields `"10m","45"` three times in order,
and `"1+(3*2)"` yields `"1","3","3"`, each followed by nothing. -/
theorem c2_enumeration :
    (∀ l r a b, evalM l = .ok a → evalM r = .ok b →
      evalM (.cons .add l r) = .ok (a.join b)) ∧
    (∀ l r d n, evalM l = .ok (.durations d) → evalM r = .ok (.int n) →
      evalM (.cons .mul l r) = .ok (.durations (List.replicate n d).flatten)) ∧
    (∀ l r d n, evalM l = .ok (.int n) → evalM r = .ok (.durations d) →
      evalM (.cons .mul l r) = .ok (.durations (List.replicate n d).flatten)) ∧
    (∀ l r a b, evalM l = .ok (.int a) → evalM r = .ok (.int b) →
      evalM (.cons .mul l r) = .ok (.durations (List.replicate b (u64str a)))) ∧
    interpret_multi 0 "3*2m" = .ok ["2m", "2m", "2m"] ∧
    interpret_multi 0 "(10m+45)*3" = .ok ["10m", "45", "10m", "45", "10m", "45"] ∧
    interpret_multi 0 "1+(3*2)" = .ok ["1", "3", "3"] := by
  refine ⟨?_, ?_, ?_, ?_, rfl, rfl, rfl⟩
  · intro l r a b hl hr
    simp [evalM, hl, hr]
  · intro l r d n hl hr
    simp [evalM, hl, hr]
  · intro l r d n hl hr
    simp [evalM, hl, hr]
  · intro l r a b hl hr
    simp [evalM, hl, hr]

/-- C2 witness: the `Add` clause of `c2_enumeration` applied to the atoms
`1` and `2m`. -/
theorem c2_enumeration_witness :
    evalM (.atom (.int 1)) = .ok (.int 1) ∧
    evalM (.atom (.duration "2m")) = .ok (.durations ["2m"]) ∧
    evalM (.cons .add (.atom (.int 1)) (.atom (.duration "2m"))) =
      .ok ((DurationsOrInt.int 1).join (.durations ["2m"])) :=
  ⟨rfl, rfl, c2_enumeration.1 _ _ _ _ rfl rfl⟩

/-! ## Claim C4: token orderings in the Units format -/

/-- On a token list free of separator and meridiem tokens, the units scan
always succeeds: `Number` and `Unit` are the only token shapes it can meet. -/
theorem evalUnitsScan_ok_of_no_time_tokens :
    ∀ (ts : List Token) (a b : ℚ),
      (∀ t ∈ ts, t ≠ .separator ∧ t.isMeridiem = false) →
      ∃ p, evalUnitsScan ts a b = .ok p := by
  intro ts
  induction ts with
  | nil => exact fun a b _ => ⟨(a, b), rfl⟩
  | cons t rest ih =>
    intro a b h
    have ht := h t (List.mem_cons_self t rest)
    have hrest : ∀ x ∈ rest, x ≠ Token.separator ∧ x.isMeridiem = false :=
      fun x hx => h x (List.mem_cons_of_mem t hx)
    match t with
    | .number n => exact ih a n hrest
    | .unit u => exact ih (a + u.to_duration b) b hrest
    | .meridiem m => simp [Token.isMeridiem] at ht
    | .separator => simp at ht

/-- A list classified as `Units` contains no separator and no meridiem. -/
theorem no_time_tokens_of_format_units (ts : List Token)
    (h : get_tokens_format ts = .units) :
    ∀ t ∈ ts, t ≠ .separator ∧ t.isMeridiem = false := by
  unfold get_tokens_format at h
  split at h
  · exact absurd h (by simp)
  · split at h
    · exact absurd h (by simp)
    · rename_i hnot
      push_neg at hnot
      obtain ⟨hsep, hmeri⟩ := hnot
      intro t ht
      constructor
      · intro hteq
        subst hteq
        exact hsep (List.elem_eq_true_of_mem ht)
      · by_contra hm
        exact hmeri (List.any_of_mem ht (by simpa using hm))

/-- C4 counterexample: `"h3"`, which the claim lists as a `ClashingFormats`
error, in fact evaluates successfully to 3 minutes. -/
theorem c4_counterexample :
    interpret_single 0 "h3" = .ok 180000 ∧
    interpret_single 0 "h3" ≠ .error .ClashingFormats := by
  have h : interpret_single 0 "h3" = .ok 180000 := by with_unfolding_all rfl
  exact ⟨h, by simp [h]⟩

/-- C4 (amended): in the Units format, `ClashingFormats` is never returned:
the separator/meridiem tokens that raise it are exactly the ones that route a
list to the Time format instead. Orderings outside `(Number Unit)*` with an
optional trailing `Number` are handled leniently rather than rejected: a
`Unit` commits the most recently seen `Number` (initially zero), so `"h3"`
evaluates to 3 minutes, and a doubled unit at the token level
(`[3, hour, hour]`) evaluates to 6 hours, while the string `"3hh"` fails
earlier, at the token parser, with `InvalidUnit "hh"`. -/
theorem c4_amended :
    (∀ (now : ℚ) (ts : List Token), get_tokens_format ts = .units →
      evalTokens now ts ≠ .error .ClashingFormats) ∧
    interpret_single 0 "h3" = .ok 180000 ∧
    interpret_single 0 "3hh" = .error (.InvalidUnit "hh") ∧
    evalTokens 0 [.number 3, .unit .hour, .unit .hour] = .ok 21600000 := by
  refine ⟨?_, by with_unfolding_all rfl, rfl, by with_unfolding_all rfl⟩
  intro now ts hfmt
  unfold evalTokens
  split
  · simp
  · rw [hfmt]
    obtain ⟨p, hp⟩ :=
      evalUnitsScan_ok_of_no_time_tokens ts 0 0 (no_time_tokens_of_format_units ts hfmt)
    unfold eval_units
    rw [hp]
    simp only [exbind_ok]
    split
    · split
      · split
        · simp
        · simp
      · simp
    · simp

/-- C4 witness: the universal clause of `c4_amended` applied to the doubled
unit list `[hour, hour]`, which is in Units format. -/
theorem c4_amended_witness :
    get_tokens_format [.unit .hour, .unit .hour] = .units ∧
    evalTokens 0 [.unit .hour, .unit .hour] ≠ .error .ClashingFormats :=
  ⟨rfl, c4_amended.1 0 _ rfl⟩

/-! ## Claim C5: the `MulDurations` error -/

/-- C5: `MulDurations` is the only error the evaluator itself can raise, and
a `Mul` node whose operands both evaluated successfully raises it exactly
when both operands are duration sequences; `"3h * 2am"` (both literals
individually valid) fails with `MulDurations`. -/
theorem c5_mul_durations :
    (∀ e err, evalM e = .error err → err = .MulDurations) ∧
    (∀ l r a b, evalM l = .ok a → evalM r = .ok b →
      (evalM (.cons .mul l r) = .error .MulDurations ↔
        a.isDurations = true ∧ b.isDurations = true)) ∧
    interpret_single 0 "3h" = .ok 10800000 ∧
    interpret_multi 0 "3h * 2am" = .error .MulDurations := by
  refine ⟨?_, ?_, by with_unfolding_all rfl, rfl⟩
  · intro e
    induction e with
    | atom v => cases v <;> simp [evalM]
    | cons op l r ihl ihr =>
      intro err h
      rw [evalM] at h
      match hl : evalM l with
      | .error e1 => rw [hl] at h; simp at h; exact h ▸ ihl e1 hl
      | .ok dl =>
        rw [hl] at h
        match hr : evalM r with
        | .error e2 => rw [hr] at h; simp at h; exact h ▸ ihr e2 hr
        | .ok dr =>
          rw [hr] at h
          simp only [exbind_ok] at h
          cases op with
          | add => simp at h
          | mul => cases dl <;> cases dr <;> simp_all
  · intro l r a b hl hr
    rw [evalM, hl, hr]
    simp only [exbind_ok]
    cases a <;> cases b <;> simp [DurationsOrInt.isDurations]

/-- C5 witness: the iff clause of `c5_mul_durations` at two one-literal
sequences. -/
theorem c5_mul_durations_witness :
    evalM (.cons .mul (.atom (.duration "3h")) (.atom (.duration "2am"))) =
        .error .MulDurations ↔
      (DurationsOrInt.durations ["3h"]).isDurations = true ∧
      (DurationsOrInt.durations ["2am"]).isDurations = true :=
  c5_mul_durations.2.1 _ _ _ _ rfl rfl

/-! ## Claim C3: the trailing-bare-number rule of the Units format -/

/-- The units scan splits over list concatenation. -/
theorem evalUnitsScan_append :
    ∀ (l1 l2 : List Token) (a b : ℚ),
      evalUnitsScan (l1 ++ l2) a b =
        match evalUnitsScan l1 a b with
        | .ok p => evalUnitsScan l2 p.1 p.2
        | .error e => .error e := by
  intro l1
  induction l1 with
  | nil => intro l2 a b; rfl
  | cons t rest ih =>
    intro l2 a b
    match t with
    | .number n => simpa using ih l2 a n
    | .unit u => simpa using ih l2 (a + u.to_duration b) b
    | .meridiem m => rfl
    | .separator => rfl

/-- C3: when a Units-format token list ends in a bare `Number n` whose
predecessor is `Unit u`, the number contributes in the unit one step smaller
than `u`, and when `u` is milliseconds the result is the
`SmallerThanMilli n` error instead; consequently
`interpret_single "3h4" = interpret_single "3h 4m"`, and
`"10s 300ms 10"` fails with `SmallerThanMilli 10`. -/
theorem c3_trailing_number :
    (∀ (init : List Token) (u : TimeUnit) (n T : ℚ),
      eval_units (init ++ [.unit u]) = .ok T →
      eval_units (init ++ [.unit u, .number n]) =
        (match u.smaller_unit with
         | some su => .ok (T + su.to_duration n)
         | none => .error (.SmallerThanMilli n))) ∧
    (∀ u : TimeUnit, u.smaller_unit = none ↔ u = .milli) ∧
    (∀ now : ℚ, interpret_single now "3h4" = interpret_single now "3h 4m") ∧
    interpret_single 0 "10s 300ms 10" = .error (.SmallerThanMilli 10) := by
  refine ⟨?_, by intro u; cases u <;> decide, fun _ => rfl, rfl⟩
  intro init u n T hT
  have hsplit : init ++ [Token.unit u, Token.number n] =
      (init ++ [Token.unit u]) ++ [Token.number n] := by
    simp
  match hscan : evalUnitsScan (init ++ [Token.unit u]) 0 0 with
  | .error e =>
    rw [eval_units, hscan] at hT
    simp at hT
  | .ok p =>
    rw [eval_units, hscan, List.getLast?_concat] at hT
    simp only [exbind_ok] at hT
    have hp1 : p.1 = T := by simpa using hT
    have hscan2 : evalUnitsScan ((init ++ [Token.unit u]) ++ [Token.number n]) 0 0 =
        .ok (p.1, n) := by
      rw [evalUnitsScan_append, hscan]
      rfl
    have hlast : ((init ++ [Token.unit u]) ++ [Token.number n]).getLast? =
        some (Token.number n) := List.getLast?_concat _
    have hlen : ((init ++ [Token.unit u]) ++ [Token.number n]).length - 2 = init.length := by
      simp
    have hidx : ((init ++ [Token.unit u]) ++ [Token.number n])[init.length]? =
        some (Token.unit u) := by
      rw [List.append_assoc, List.getElem?_append_right (by simp)]
      simp
    rw [eval_units, hsplit, hscan2]
    simp only [exbind_ok, hlast, hlen, hidx, hp1]

/-- C3 witness: `c3_trailing_number` applied to `"3h"` followed by a bare
`4`, which lands in minutes. -/
theorem c3_trailing_number_witness :
    eval_units ([Token.number 3] ++ [.unit .hour]) = .ok 10800000 ∧
    eval_units ([Token.number 3] ++ [.unit .hour, .number 4]) =
      (match TimeUnit.hour.smaller_unit with
       | some su => .ok ((10800000 : ℚ) + su.to_duration 4)
       | none => .error (.SmallerThanMilli 4)) :=
  ⟨by with_unfolding_all rfl,
   c3_trailing_number.1 [Token.number 3] .hour 4 10800000 (by with_unfolding_all rfl)⟩

/-! ## Claim C9: closest-occurrence disambiguation without a meridiem -/

/-- The saturating `f64 → u8` cast is the identity on naturals below 256. -/
theorem satU8_natCast (n : Nat) (h : n ≤ 255) : satU8 (n : ℚ) = n := by
  unfold satU8
  rcases Nat.eq_zero_or_pos n with h0 | h0
  · subst h0; simp
  · have h1 : ¬((n : ℚ) ≤ 0) := by
      rw [not_le]
      exact_mod_cast h0
    rw [if_neg h1]
    by_cases h255 : (255 : ℚ) ≤ (n : ℚ)
    · have h2 : n = 255 := le_antisymm h (by exact_mod_cast h255)
      rw [if_pos h255, h2]
    · rw [if_neg h255, Rat.num_natCast]
      simp

/-- A successful `from_hms` certifies its slot bounds. -/
theorem from_hms_some {a b c : Nat} {t : ℚ} (h : from_hms a b c = some t) :
    a ≤ 23 ∧ b ≤ 59 ∧ c ≤ 59 := by
  rw [from_hms] at h
  split at h
  · assumption
  · cases h

/-- A valid meridiem-less AM reading certifies hour at most 12 and valid
minute and second slots. -/
theorem new_12h_ante_some {hh mm ss : Nat} {t : ℚ}
    (h : new_12h_time hh mm ss .ante = some t) : hh ≤ 12 ∧ mm ≤ 59 ∧ ss ≤ 59 := by
  rw [new_12h_time] at h
  split at h
  · cases h
  · rename_i h12
    have hb := from_hms_some (show from_hms (if hh = 12 then 0 else hh) mm ss = some t from h)
    exact ⟨by omega, hb.2⟩

/-- C9: whenever the time scan of a token list yields sections `(hh, mm, ss)`
with no meridiem and both 12-hour readings are valid, `eval_time` returns the
smaller of the durations until the AM and until the PM occurrence; this holds
in particular for every explicit `hh:mm:ss` token list with valid slots, and
concretely `interpret_single now "3:30"` picks the closer of 3:30 AM
(12600000 ms) and 3:30 PM (55800000 ms) for every `now`. -/
theorem c9_closest_occurrence :
    (∀ (now : ℚ) (ts : List Token) (hh mm ss : Nat) (ta tp : ℚ),
      evalTimeScan ts 0 (0, 0, 0) none = .ok ((hh, mm, ss), none) →
      new_12h_time hh mm ss .ante = some ta →
      new_12h_time hh mm ss .post = some tp →
      eval_time now ts =
        .ok (min (duration_until_time ta now) (duration_until_time tp now))) ∧
    (∀ (now : ℚ) (hh mm ss : Nat) (ta tp : ℚ),
      new_12h_time hh mm ss .ante = some ta →
      new_12h_time hh mm ss .post = some tp →
      evalTokens now [.number hh, .separator, .number mm, .separator, .number ss] =
        .ok (min (duration_until_time ta now) (duration_until_time tp now))) ∧
    (∀ now : ℚ, interpret_single now "3:30" =
      .ok (min (duration_until_time 12600000 now) (duration_until_time 55800000 now))) := by
  have general : ∀ (now : ℚ) (ts : List Token) (hh mm ss : Nat) (ta tp : ℚ),
      evalTimeScan ts 0 (0, 0, 0) none = .ok ((hh, mm, ss), none) →
      new_12h_time hh mm ss .ante = some ta →
      new_12h_time hh mm ss .post = some tp →
      eval_time now ts =
        .ok (min (duration_until_time ta now) (duration_until_time tp now)) := by
    intro now ts hh mm ss ta tp hscan hta htp
    rw [eval_time, hscan]
    simp only [exbind_ok]
    rw [hta, htp]
  refine ⟨general, ?_, ?_⟩
  · intro now hh mm ss ta tp hta htp
    have hbounds : hh ≤ 12 ∧ mm ≤ 59 ∧ ss ≤ 59 := new_12h_ante_some hta
    have hscan : evalTimeScan
        [Token.number hh, .separator, .number mm, .separator, .number ss]
        0 (0, 0, 0) none = .ok ((hh, mm, ss), none) := by
      simp [evalTimeScan, Rat.den_natCast, setSection,
        satU8_natCast hh (by omega), satU8_natCast mm (by omega),
        satU8_natCast ss (by omega)]
    have hts : get_tokens_format
        [Token.number hh, .separator, .number mm, .separator, .number ss] = .time := by
      rfl
    rw [evalTokens, if_neg (by simp), hts]
    exact general now _ hh mm ss ta tp hscan hta htp
  · intro now
    have h1 : lexSingle "3:30" = .ok [⟨.number, ['3']⟩, ⟨.separator, [':']⟩,
        ⟨.number, ['3', '0']⟩] := rfl
    have hscan : evalTimeScan [Token.number 3, .separator, .number 30]
        0 (0, 0, 0) none = .ok ((3, 30, 0), none) := by
      with_unfolding_all rfl
    have hta : new_12h_time 3 30 0 .ante = some 12600000 := by with_unfolding_all rfl
    have htp : new_12h_time 3 30 0 .post = some 55800000 := by with_unfolding_all rfl
    have h2 : parseTokens [⟨.number, ['3']⟩, ⟨.separator, [':']⟩, ⟨.number, ['3', '0']⟩] =
        .ok [Token.number 3, .separator, .number 30] := by
      with_unfolding_all rfl
    rw [interpret_single, h1]
    simp only [exbind_ok]
    rw [h2]
    simp only [exbind_ok]
    rw [evalTokens, if_neg (by simp), show get_tokens_format
      [Token.number 3, .separator, .number 30] = .time from rfl]
    exact general now _ 3 30 0 _ _ hscan hta htp

/-- C9 witness: the token-level clause of `c9_closest_occurrence` at 5:00:00
observed from midnight. -/
theorem c9_closest_occurrence_witness :
    new_12h_time 5 0 0 .ante = some 18000000 ∧
    new_12h_time 5 0 0 .post = some 61200000 ∧
    evalTokens 0 [.number 5, .separator, .number 0, .separator, .number 0] =
      .ok (min (duration_until_time 18000000 0) (duration_until_time 61200000 0)) :=
  ⟨by with_unfolding_all rfl, by with_unfolding_all rfl,
   c9_closest_occurrence.2.1 0 5 0 0 _ _ (by with_unfolding_all rfl)
     (by with_unfolding_all rfl)⟩

/-! ## Claim C1: the trailing-star "unbounded" repeat -/

/-- The literal sequence `"2h + 1h*"` actually evaluates to: the trailing
star becomes a multiplication by `u64::MAX`, so the sequence is `"2h"`
followed by exactly `u64::MAX` copies of `"1h"` — astronomically long but
finite. -/
theorem star_sequence :
    interpret_multi 0 "2h + 1h*" = .ok ("2h" :: List.replicate u64Max "1h") := by
  have hp : mparse 0 "2h + 1h*" = .ok (.cons .add (.atom (.duration "2h"))
      (.cons .mul (.atom (.duration "1h")) (.atom (.int u64Max)))) := rfl
  rw [interpret_multi, hp]
  simp [evalM, DurationsOrInt.join, DurationsOrInt.into_durations]

/-- C1 counterexample: the sequence produced for `"2h + 1h*"` is not
unbounded — the call to `next()` with `2 ^ 64` calls before it (index
`2 ^ 64` of the stream) returns none. -/
theorem c1_counterexample :
    (interpret_multi 0 "2h + 1h*").map (fun l => l[(2 : Nat) ^ 64]?) = .ok none := by
  rw [star_sequence]
  simp only [exmap_ok, Except.ok.injEq]
  apply List.getElem?_eq_none
  rw [List.length_cons, List.length_replicate]
  norm_num [u64Max]

/-- C1 (amended): a trailing `*` is parsed as multiplication by `u64::MAX`,
so the resulting sequence is finite but practically unbounded: for
`"2h + 1h*"` it is exactly `"2h"` followed by `u64::MAX` copies of `"1h"`
(so `next()` yields a literal for each of the first `2 ^ 64` calls and
`none` from call `2 ^ 64` on), and it is produced lazily, never eagerly
enumerated. -/
theorem c1_amended :
    interpret_multi 0 "2h + 1h*" = .ok ("2h" :: List.replicate u64Max "1h") :=
  star_sequence

/-! ## Claims C6 and C10: the timer state machine -/

/-- The start-time/total-duration coupling invariant of `RawTimer`. -/
def TimerInv (s : RawTimer) : Prop := s.start_time.isSome = s.duration.isSome

/-- `resume` keeps the start time. -/
theorem resume_start_time (now : ℚ) (s : RawTimer) :
    (s.resume now).start_time = s.start_time := by
  rw [RawTimer.resume]
  split
  · match s.last_pause_time with
    | none => rfl
    | some lp => rfl
  · rfl

/-- `resume` keeps the total duration. -/
theorem resume_duration (now : ℚ) (s : RawTimer) :
    (s.resume now).duration = s.duration := by
  rw [RawTimer.resume]
  split
  · match s.last_pause_time with
    | none => rfl
    | some lp => rfl
  · rfl

/-- Elapsed time is unchanged by `resume` evaluated at the same instant: the
pause span folded into the accumulator equals the span the pause timestamp
was masking. -/
theorem resume_elapsed (now : ℚ) (s : RawTimer) :
    (s.resume now).get_time_elapsed now = s.get_time_elapsed now := by
  rw [RawTimer.resume]
  split
  · match hlp : s.last_pause_time with
    | none => rfl
    | some lp =>
      simp only [RawTimer.get_time_elapsed, hlp]
      match s.start_time with
      | none => rfl
      | some st =>
        simp only [Option.getD_some, Option.getD_none]
        ring
  · rfl

/-- After `resume` a started timer holds no pause timestamp: either it was
paused (and `resume` clears it) or it was running (and it was already clear). -/
theorem resume_lp_none (now : ℚ) (s : RawTimer) (hst : s.started = true) :
    (s.resume now).last_pause_time = none := by
  rw [RawTimer.resume]
  split
  · rename_i hp
    match hlp : s.last_pause_time with
    | none =>
      rw [RawTimer.paused, hlp] at hp
      simp at hp
    | some lp => rfl
  · rename_i hp
    rw [RawTimer.paused, hst] at hp
    simp only [Bool.true_and, Bool.not_eq_true] at hp
    simpa using hp

/-- C6: on a started, unfinished timer, subtracting at least the remaining
time saturates: the call returns (no panic), the live remaining time and the
`time_remaining` signal land exactly on zero, the pause timestamp is
cleared, and the timer is left running (not paused). -/
theorem c6_saturation :
    ∀ (now delta : ℚ) (s : RawTimer) (rem : ℚ),
      TimerInv s → s.started = true → s.finished = false → delta < 0 →
      s.get_time_remaining now = some rem → rem ≤ -delta →
      ∃ s2, s.add_duration now delta = some s2 ∧
        s2.get_time_remaining now = some 0 ∧
        s2.time_remaining = some 0 ∧
        s2.last_pause_time = none ∧
        s2.paused = false ∧
        s2.running = true := by
  intro now delta s rem hinv hst hfin hneg hrem hle
  match hdur : s.duration with
  | none =>
    rw [RawTimer.get_time_remaining, hdur] at hrem
    cases hrem
  | some dur =>
    have hrem2 : dur - s.get_time_elapsed now = rem := by
      rw [RawTimer.get_time_remaining, hdur] at hrem
      simpa using hrem
    rw [RawTimer.add_duration, if_pos hst, if_pos hneg,
      if_neg (by rw [hfin]; simp), hrem]
    simp only [hdur, if_pos hle]
    set t := { s.resume now with duration := some (dur - rem) } with ht
    have htel : t.get_time_elapsed now = s.get_time_elapsed now := by
      rw [show t.get_time_elapsed now = (s.resume now).get_time_elapsed now from rfl,
        resume_elapsed]
    have htrem : t.get_time_remaining now = some 0 := by
      rw [RawTimer.get_time_remaining, show t.duration = some (dur - rem) from rfl, htel]
      simp only [Option.map_some', Option.some.injEq]
      rw [← hrem2]
      ring
    have hlp : t.last_pause_time = none := by
      rw [show t.last_pause_time = (s.resume now).last_pause_time from rfl,
        resume_lp_none now s hst]
    have hst2 : t.start_time = s.start_time := by
      rw [show t.start_time = (s.resume now).start_time from rfl, resume_start_time]
    refine ⟨_, rfl, ?_, ?_, ?_, ?_, ?_⟩
    · rw [show RawTimer.get_time_remaining now
          (RawTimer.update_time_remaining now (RawTimer.update_end_time now t)) =
          t.get_time_remaining now from rfl]
      exact htrem
    · rw [show (RawTimer.update_time_remaining now (RawTimer.update_end_time now t)).time_remaining =
          t.get_time_remaining now from rfl]
      exact htrem
    · exact hlp
    · rw [show (RawTimer.update_time_remaining now (RawTimer.update_end_time now t)).paused =
          t.paused from rfl]
      rw [RawTimer.paused, hlp]
      simp
    · rw [show (RawTimer.update_time_remaining now (RawTimer.update_end_time now t)).running =
          t.running from rfl]
      rw [RawTimer.running, RawTimer.paused, hlp, RawTimer.started, hst2]
      rw [RawTimer.started] at hst
      rw [hst]
      rfl

/-- C6 witness: a timer of 100 ms started at 0 and observed at 30 (so 70 ms
remain), edited by `-80` ms. -/
theorem c6_saturation_witness :
    ∃ s2,
      RawTimer.add_duration 30 (-80)
        { duration := some 100, start_time := some 0, last_pause_time := none,
          acc_paused_duration := 0, time_remaining := some 100, end_time := none } = some s2 ∧
      s2.get_time_remaining 30 = some 0 ∧
      s2.time_remaining = some 0 ∧
      s2.last_pause_time = none ∧
      s2.paused = false ∧
      s2.running = true :=
  c6_saturation 30 (-80)
    { duration := some 100, start_time := some 0, last_pause_time := none,
      acc_paused_duration := 0, time_remaining := some 100, end_time := none } 70
    rfl rfl (by with_unfolding_all rfl) (by norm_num)
    (by with_unfolding_all rfl) (by norm_num)

/-- C10: every timer operation preserves the invariant that the start-time
field is set exactly when the total-duration field is set; under it,
`get_time_remaining` returns a value exactly when the timer is started, and
`add_duration` always returns (none of its internal `unwrap`s can panic). -/
theorem c10_invariant :
    TimerInv RawTimer.new ∧
    (∀ (now d : ℚ) (s : RawTimer), TimerInv (s.start now d)) ∧
    (∀ (now d : ℚ) (s : RawTimer), TimerInv (s.restart now d)) ∧
    (∀ (now : ℚ) (s : RawTimer), TimerInv (s.reset now)) ∧
    (∀ (now : ℚ) (s : RawTimer), TimerInv s → TimerInv (s.pause now)) ∧
    (∀ (now : ℚ) (s : RawTimer), TimerInv s → TimerInv (s.resume now)) ∧
    (∀ (now delta : ℚ) (s : RawTimer), TimerInv s →
      ∃ s2, s.add_duration now delta = some s2 ∧ TimerInv s2) ∧
    (∀ (now : ℚ) (s : RawTimer), TimerInv s →
      (s.get_time_remaining now).isSome = s.started) := by
  refine ⟨rfl, fun _ _ _ => rfl, fun _ _ _ => rfl, fun _ _ => rfl, ?_, ?_, ?_, ?_⟩
  · intro now s h
    rw [RawTimer.pause]
    split
    · exact h
    · exact h
  · intro now s h
    rw [TimerInv, resume_start_time, resume_duration]
    exact h
  · intro now delta s h
    rw [RawTimer.add_duration]
    by_cases hst : s.started = true
    case neg =>
      rw [if_neg hst]
      exact ⟨s, rfl, h⟩
    rw [if_pos hst]
    have hdsome : ∃ dur, s.duration = some dur := by
      rw [TimerInv, RawTimer.started] at *
      rw [hst] at h
      exact Option.isSome_iff_exists.mp h.symm
    obtain ⟨dur, hdur⟩ := hdsome
    have hrem : s.get_time_remaining now = some (dur - s.get_time_elapsed now) := by
      rw [RawTimer.get_time_remaining, hdur]
      rfl
    have hinvres : ∀ d2 : ℚ, TimerInv
        (RawTimer.update_time_remaining now (RawTimer.update_end_time now
          { s.resume now with duration := some d2 })) := by
      intro d2
      show ((s.resume now).start_time).isSome = (some d2).isSome
      rw [resume_start_time]
      rw [RawTimer.started] at hst
      rw [hst]
      rfl
    have hinvdur : ∀ d2 : ℚ, TimerInv
        (RawTimer.update_time_remaining now (RawTimer.update_end_time now
          { s with duration := some d2 })) := by
      intro d2
      show (s.start_time).isSome = (some d2).isSome
      rw [RawTimer.started] at hst
      rw [hst]
      rfl
    split
    · split
      · exact ⟨s, rfl, h⟩
      · rw [hrem]
        simp only [hdur]
        split
        · exact ⟨_, rfl, hinvres _⟩
        · exact ⟨_, rfl, hinvdur _⟩
    · split
      · split
        · exact ⟨_, rfl, by
            show TimerInv (RawTimer.update_time_remaining now (RawTimer.update_end_time now
              (s.restart now delta)))
            rfl⟩
        · simp only [hdur]
          exact ⟨_, rfl, hinvdur _⟩
      · exact ⟨_, rfl, by
          show TimerInv (RawTimer.update_time_remaining now (RawTimer.update_end_time now s))
          exact h⟩
  · intro now s h
    have hmap : (Option.map (fun d => d - s.get_time_elapsed now) s.duration).isSome =
        s.duration.isSome := by
      match s.duration with
      | some d => rfl
      | none => rfl
    rw [RawTimer.get_time_remaining, hmap, ← h, RawTimer.started]

/-- A concrete started, paused timer used as a witness state. -/
def pausedTimer : RawTimer :=
  { duration := some 100, start_time := some 0, last_pause_time := some 10,
    acc_paused_duration := 0, time_remaining := some 100, end_time := none }

/-- C10 witness: the `add_duration` clause at a concrete started, paused
timer. -/
theorem c10_invariant_witness :
    TimerInv pausedTimer ∧
    ∃ s2, RawTimer.add_duration 20 50 pausedTimer = some s2 ∧ TimerInv s2 :=
  ⟨rfl, c10_invariant.2.2.2.2.2.2.1 20 50 pausedTimer rfl⟩

/-! ## Claim C8: persistence decode replay and discard conditions -/

@[simp]
theorem obind_some {α β : Type} (a : α) (f : α → Option β) :
    ((some a : Option α) >>= f) = f a := rfl

@[simp]
theorem obind_none {α β : Type} (f : α → Option β) :
    ((none : Option α) >>= f) = none := rfl

/-- A successful `next()` advances the consumed count exactly when a literal
was available, and shortens the cursor by one. -/
theorem next_consumed (now : ℚ) (t t2 : MT) (h : MT.next now t = some t2) :
    t2.consumed = t.consumed + (if t.iter = [] then 0 else 1) ∧
    t2.iter.length = t.iter.length - 1 := by
  rw [MT.next] at h
  match hit : t.iter with
  | [] =>
    rw [hit] at h
    cases h
    simp [hit]
  | lit :: rest =>
    rw [hit] at h
    match hsi : interpret_single now lit with
    | .ok d =>
      simp only [hsi] at h
      cases h
      simp [hit]
    | .error err =>
      simp only [hsi] at h
      cases h

/-- Replaying `k` calls to `next()` advances the consumed count by
`min k (cursor length)` and shortens the cursor by `k` (floored). -/
theorem iterNext_consumed (now : ℚ) :
    ∀ (k : Nat) (t t2 : MT), iterNext now k t = some t2 →
      t2.consumed = t.consumed + Nat.min k t.iter.length ∧
      t2.iter.length = t.iter.length - k := by
  intro k
  induction k with
  | zero =>
    intro t t2 h
    rw [iterNext] at h
    cases h
    simp
  | succ k ih =>
    intro t t2 h
    rw [iterNext] at h
    match hn : MT.next now t with
    | none => rw [hn] at h; cases h
    | some t1 =>
      rw [hn] at h
      simp only [Option.some_bind] at h
      obtain ⟨hc, hl⟩ := next_consumed now t t1 hn
      obtain ⟨hc2, hl2⟩ := ih t1 t2 h
      constructor
      · rw [hc2, hc, hl]
        by_cases he : t.iter = []
        · rw [he]
          simp
        · have hpos : 0 < t.iter.length := List.length_pos.mpr he
          rw [if_neg he]
          simp only [Nat.min_def]
          split_ifs <;> omega
      · rw [hl2, hl]
        omega

/-- C8 counterexample: a stored entry with a pause timestamp, no start
timestamp, and `consumed = 1` — by the claim it must be discarded, but decode
keeps it, because the replayed `next()` already started the timer before the
pause-without-start check runs. -/
def storedPauseEntry : TimerJson :=
  { duration := none, start := none, last_pause := some 1000,
    acc_pause_duration := 0, duration_input := "5m", title := "", consumed := 1 }

/-- C8 counterexample: `storedPauseEntry` stores a pause but no started
state, yet decode keeps it (the restored list has one entry, not zero). -/
theorem c8_counterexample :
    storedPauseEntry.start = none ∧
    storedPauseEntry.last_pause = some 1000 ∧
    storedPauseEntry.consumed = 1 ∧
    (parse_timer_json 0 [storedPauseEntry]).length = 1 :=
  ⟨rfl, rfl, rfl, by with_unfolding_all rfl⟩

/-- C8 (amended): decode keeps an entry only if replay reaches the stored
count — a kept entry's multi-timer holds exactly the stored `consumed`, and
an entry whose literal sequence is shorter than `consumed` is discarded (as
is any entry whose input no longer interprets); other entries in the list
still load, since decode is a per-entry `filter_map`. The pause-without-start
check, however, consults the timer as replayed: an entry with a stored pause
and no started state is discarded only when `consumed = 0` (when
`consumed > 0` the replay itself has started the timer, and the entry is
kept, its start timestamp coming from the replay clock). -/
theorem c8_amended :
    (∀ (now : ℚ) (e : TimerJson) (mt : MT),
      parseEntry now e = some mt → mt.consumed = e.consumed) ∧
    (∀ (now : ℚ) (e : TimerJson),
      e.consumed = 0 → e.start = none → e.last_pause.isSome →
      parseEntry now e = none) ∧
    (∀ (now : ℚ) (e : TimerJson) (lits : List String),
      interpret_multi now e.duration_input = .ok lits →
      lits.length < e.consumed →
      parseEntry now e = none) ∧
    (∀ (now : ℚ) (entries : List TimerJson),
      parse_timer_json now entries = entries.filterMap (parseEntry now)) := by
  have hso : ∀ (now : ℚ) (e : TimerJson) (t1 t2 : MT),
      startOverride now e t1 = some t2 → t2.consumed = t1.consumed := by
    intro now e t1 t2 h
    rw [startOverride] at h
    match hs : e.start with
    | some st =>
      simp only [hs] at h
      match hd : e.duration with
      | none =>
        simp only [hd, Option.none_bind] at h
        cases h
      | some d =>
        simp only [hd, Option.some_bind] at h
        cases h
        rfl
    | none =>
      simp only [hs] at h
      cases h
      rfl
  have hpo : ∀ (now : ℚ) (e : TimerJson) (t2 t3 : MT),
      pauseOverride now e t2 = some t3 → t3.consumed = t2.consumed := by
    intro now e t2 t3 h
    rw [pauseOverride] at h
    match hlp : e.last_pause with
    | some lp =>
      simp only [hlp] at h
      by_cases hst : t2.current.started = true
      · rw [if_pos hst] at h
        cases h
        rfl
      · rw [if_neg hst] at h
        cases h
    | none =>
      simp only [hlp] at h
      cases h
      rfl
  refine ⟨?_, ?_, ?_, fun _ _ => rfl⟩
  · intro now e mt h
    rw [parseEntry] at h
    match him : (interpret_multi now e.duration_input).toOption with
    | none => rw [him] at h; cases h
    | some lits =>
      rw [him] at h
      simp only [Option.some_bind] at h
      match ht1 : replay now e lits
          { MT.new with input := e.duration_input, title := e.title } with
      | none => rw [ht1] at h; cases h
      | some t1 =>
        rw [ht1] at h
        simp only [Option.some_bind] at h
        by_cases hguard : e.consumed ≠ t1.consumed
        · rw [if_pos hguard] at h; cases h
        · rw [if_neg hguard] at h
          push_neg at hguard
          match ht2 : startOverride now e t1 with
          | none => rw [ht2] at h; cases h
          | some t2 =>
            rw [ht2] at h
            simp only [Option.some_bind] at h
            match ht3 : pauseOverride now e t2 with
            | none => rw [ht3] at h; cases h
            | some t3 =>
              rw [ht3] at h
              simp only [Option.some_bind] at h
              cases h
              have hfc : (finalizeEntry now e t3).consumed = t3.consumed := rfl
              rw [hfc, hpo now e t2 t3 ht3, hso now e t1 t2 ht2, ← hguard]
  · intro now e hc hs hlp
    rw [parseEntry]
    match him : (interpret_multi now e.duration_input).toOption with
    | none => rfl
    | some lits =>
      simp only [Option.some_bind]
      set t0 : MT := { MT.new with input := e.duration_input, title := e.title } with ht0
      have hrep : replay now e lits t0 = some t0 := by
        rw [replay, if_neg (by simpa using hc)]
      rw [hrep]
      simp only [Option.some_bind]
      have ht0c : t0.consumed = 0 := rfl
      rw [if_neg (by rw [ht0c, hc]; simp)]
      have hso2 : startOverride now e t0 = some t0 := by
        rw [startOverride, hs]
      rw [hso2]
      simp only [Option.some_bind]
      match hlpe : e.last_pause with
      | none => rw [hlpe] at hlp; cases hlp
      | some lp =>
        have hpo2 : pauseOverride now e t0 = none := by
          rw [pauseOverride, hlpe]
          rfl
        rw [hpo2]
        rfl
  · intro now e lits him hlen
    have hc0 : e.consumed ≠ 0 := by omega
    rw [parseEntry]
    have htop : (interpret_multi now e.duration_input).toOption = some lits := by
      rw [him]; rfl
    rw [htop]
    simp only [Option.some_bind]
    rw [replay, if_pos hc0]
    set t0 : MT := { MT.new with input := e.duration_input, title := e.title } with ht0
    match hst : MT.start now lits t0 with
    | none => rfl
    | some t1 =>
      simp only [obind_some]
      match hit : iterNext now (e.consumed - 1) t1 with
      | none => rfl
      | some t2 =>
        simp only [Option.some_bind]
        have hs1 := next_consumed now { t0 with iter := lits } t1 hst
        have hs2 := iterNext_consumed now (e.consumed - 1) t1 t2 hit
        have hcount : t2.consumed < e.consumed := by
          obtain ⟨hc1, hl1⟩ := hs1
          obtain ⟨hc2, hl2⟩ := hs2
          have hmin : Nat.min (e.consumed - 1) t1.iter.length ≤ t1.iter.length :=
            Nat.min_le_right _ _
          have ht0c : ({ t0 with iter := lits } : MT).consumed = 0 := rfl
          have ht0i : ({ t0 with iter := lits } : MT).iter = lits := rfl
          rw [ht0c] at hc1
          rw [ht0i] at hc1 hl1
          by_cases he : lits = []
          · rw [if_pos he] at hc1
            subst he
            simp only [List.length_nil] at hlen hl1
            omega
          · rw [if_neg he] at hc1
            have hlpos : 0 < lits.length := List.length_pos.mpr he
            omega
        rw [if_pos (by omega)]

/-- A stored entry with a pause timestamp, no start timestamp, and no
replayed advance. -/
def pauseNoStartEntry : TimerJson :=
  { duration := none, start := none, last_pause := some 5,
    acc_pause_duration := 0, duration_input := "5m", title := "", consumed := 0 }

/-- C8 witness: the pause-without-start clause of `c8_amended` at a concrete
never-advanced entry. -/
theorem c8_amended_witness : parseEntry 0 pauseNoStartEntry = none :=
  c8_amended.2.1 0 pauseNoStartEntry rfl rfl rfl

/-! ## Claim C7: every emitted literal re-parses -/

/-- The duration-literal texts appearing as atoms of an AST. -/
def durAtoms : SExpr → List String
  | .atom (.duration s) => [s]
  | .atom (.int _) => []
  | .cons _ l r => durAtoms l ++ durAtoms r

/-- Every literal an evaluated expression yields is either the text of one of
the expression's duration atoms or the decimal rendering of some `u64`. -/
theorem evalM_lits :
    ∀ (e : SExpr) (d : DurationsOrInt), evalM e = .ok d →
      ∀ s ∈ d.into_durations, s ∈ durAtoms e ∨ ∃ n, s = u64str n := by
  intro e
  induction e with
  | atom v =>
    intro d h s hs
    cases v with
    | duration str =>
      simp only [evalM] at h
      cases h
      simp only [DurationsOrInt.into_durations, List.mem_singleton] at hs
      subst hs
      exact Or.inl (by simp [durAtoms])
    | int n =>
      simp only [evalM] at h
      cases h
      simp only [DurationsOrInt.into_durations, List.mem_singleton] at hs
      exact Or.inr ⟨n, hs⟩
  | cons op l r ihl ihr =>
    intro d h s hs
    rw [evalM] at h
    match hl : evalM l with
    | .error e1 =>
      rw [hl] at h
      simp only [exbind_error] at h
      cases h
    | .ok dl =>
      rw [hl] at h
      simp only [exbind_ok] at h
      match hr : evalM r with
      | .error e2 =>
        rw [hr] at h
        simp only [exbind_error] at h
        cases h
      | .ok dr =>
        rw [hr] at h
        simp only [exbind_ok] at h
        have liftl : ∀ s, s ∈ durAtoms l → s ∈ durAtoms (SExpr.cons op l r) := by
          intro x hx
          simp [durAtoms, hx]
        have liftr : ∀ s, s ∈ durAtoms r → s ∈ durAtoms (SExpr.cons op l r) := by
          intro x hx
          simp [durAtoms, hx]
        cases op with
        | add =>
          cases h
          simp only [DurationsOrInt.join, DurationsOrInt.into_durations,
            List.mem_append] at hs
          rcases hs with hsl | hsr
          · rcases ihl dl hl s hsl with ha | hn
            · exact Or.inl (liftl s ha)
            · exact Or.inr hn
          · rcases ihr dr hr s hsr with ha | hn
            · exact Or.inl (liftr s ha)
            · exact Or.inr hn
        | mul =>
          cases dl with
          | durations a =>
            cases dr with
            | durations b => simp at h
            | int n =>
              cases h
              simp only [DurationsOrInt.into_durations, List.mem_flatten] at hs
              obtain ⟨L, hL, hsL⟩ := hs
              have hLa := List.eq_of_mem_replicate hL
              rw [hLa] at hsL
              rcases ihl (.durations a) hl s (by simpa [DurationsOrInt.into_durations]
                using hsL) with ha | hn
              · exact Or.inl (liftl s ha)
              · exact Or.inr hn
          | int n =>
            cases dr with
            | durations a =>
              cases h
              simp only [DurationsOrInt.into_durations, List.mem_flatten] at hs
              obtain ⟨L, hL, hsL⟩ := hs
              have hLa := List.eq_of_mem_replicate hL
              rw [hLa] at hsL
              rcases ihr (.durations a) hr s (by simpa [DurationsOrInt.into_durations]
                using hsL) with ha | hn
              · exact Or.inl (liftr s ha)
              · exact Or.inr hn
            | int b =>
              cases h
              simp only [DurationsOrInt.into_durations] at hs
              exact Or.inr ⟨n, List.eq_of_mem_replicate hs⟩

/-- A successful duration-literal validation pass certifies every duration
token in the list. -/
theorem validateTokens_ok :
    ∀ (now : ℚ) (ts : List MToken), validateTokens now ts = .ok () →
      ∀ s, MToken.value (.duration s) ∈ ts → ∃ d, interpret_single now s = .ok d := by
  intro now ts
  induction ts with
  | nil =>
    intro _ s hs
    cases hs
  | cons t rest ih =>
    intro h s hs
    rcases List.mem_cons.mp hs with heq | hmem
    · cases t with
      | value v =>
        cases v with
        | duration str =>
          have hstr : s = str := by
            cases heq
            rfl
          subst hstr
          have h2 : (interpret_single now s >>= fun _ => validateTokens now rest) =
              .ok () := h
          match hsi : interpret_single now s with
          | .ok d => exact ⟨d, rfl⟩
          | .error err =>
            rw [hsi] at h2
            simp only [exbind_error] at h2
            cases h2
        | int n => cases heq
      | op o => cases heq
      | eof => cases heq
    · cases t with
      | value v =>
        cases v with
        | duration str =>
          have h2 : (interpret_single now str >>= fun _ => validateTokens now rest) =
              .ok () := h
          match hsi : interpret_single now str with
          | .ok d =>
            rw [hsi] at h2
            simp only [exbind_ok] at h2
            exact ih h2 s hmem
          | .error err =>
            rw [hsi] at h2
            simp only [exbind_error] at h2
            cases h2
        | int n => exact ih h s hmem
      | op o => exact ih h s hmem
      | eof => exact ih h s hmem

/-- The facts needed about a single decimal digit character. -/
theorem digitChar_props (d : Nat) (h : d < 10) :
    groupKindOf (digitChar d) = .ok .number ∧
    asciiLower (digitChar d) = digitChar d ∧
    digitChar d ≠ ' ' ∧
    digitChar d ≠ '.' ∧
    (digitChar d).isDigit = true ∧
    digitVal (digitChar d) = d := by
  interval_cases d <;> exact ⟨rfl, rfl, by decide, by decide, by decide, rfl⟩

/-- Every character of a digit expansion is a decimal digit character. -/
theorem natDigitsAux_mem :
    ∀ (fuel n : Nat) (c : Char), c ∈ natDigitsAux fuel n →
      ∃ d, d < 10 ∧ c = digitChar d := by
  intro fuel
  induction fuel with
  | zero =>
    intro n c hc
    cases hc
  | succ fuel ih =>
    intro n c hc
    rw [natDigitsAux] at hc
    by_cases hn : n < 10
    · rw [if_pos hn] at hc
      simp only [List.mem_singleton] at hc
      exact ⟨n, hn, hc⟩
    · rw [if_neg hn] at hc
      rcases List.mem_append.mp hc with hc1 | hc2
      · exact ih (n / 10) c hc1
      · simp only [List.mem_singleton] at hc2
        exact ⟨n % 10, Nat.mod_lt n (by omega), hc2⟩

/-- A digit expansion is never empty. -/
theorem natDigitsAux_ne_nil (fuel n : Nat) (h : n < fuel) :
    natDigitsAux fuel n ≠ [] := by
  match fuel with
  | fuel + 1 =>
    rw [natDigitsAux]
    by_cases hn : n < 10
    · rw [if_pos hn]
      simp
    · rw [if_neg hn]
      simp

/-- Parsing a digit expansion recovers the number. -/
theorem natDigitsAux_val :
    ∀ (fuel n : Nat), n < fuel → parseNatDigits (natDigitsAux fuel n) = n := by
  intro fuel
  induction fuel with
  | zero =>
    intro n h
    omega
  | succ fuel ih =>
    intro n h
    rw [natDigitsAux]
    by_cases hn : n < 10
    · rw [if_pos hn]
      show 10 * 0 + digitVal (digitChar n) = n
      rw [(digitChar_props n hn).2.2.2.2.2]
      omega
    · rw [if_neg hn]
      rw [parseNatDigits, List.foldl_append]
      have hih : n / 10 < fuel := by omega
      have := ih (n / 10) hih
      rw [parseNatDigits] at this
      rw [this]
      show 10 * (n / 10) + digitVal (digitChar (n % 10)) = n
      rw [(digitChar_props (n % 10) (Nat.mod_lt n (by omega))).2.2.2.2.2]
      omega

/-- The single-duration lexer groups a pure digit string into one number
group. -/
theorem lexGo_digits :
    ∀ (cs : List Char), cs ≠ [] → (∀ c ∈ cs, groupKindOf c = .ok .number) →
      lexGo cs = .ok [{ variant := .number, string := cs }] := by
  intro cs
  induction cs with
  | nil =>
    intro h _
    exact absurd rfl h
  | cons c rest ih =>
    intro _ hall
    have hc := hall c (List.mem_cons_self c rest)
    rw [lexGo, hc]
    simp only [exbind_ok]
    cases rest with
    | nil => rfl
    | cons c2 rest2 =>
      rw [ih (by simp) (fun x hx => hall x (List.mem_cons_of_mem c hx))]
      simp only [exbind_ok]
      rfl

/-- `splitFirst` finds nothing when the separator does not occur. -/
theorem splitFirst_none :
    ∀ (sep : Char) (cs : List Char), (∀ c ∈ cs, c ≠ sep) →
      splitFirst sep cs = (cs, none) := by
  intro sep cs
  induction cs with
  | nil => intro _; rfl
  | cons c rest ih =>
    intro hall
    rw [splitFirst, if_neg (hall c (List.mem_cons_self c rest))]
    rw [ih (fun x hx => hall x (List.mem_cons_of_mem c hx))]

/-- The decimal rendering of any natural interprets as that many minutes. -/
theorem interpret_single_u64str (now : ℚ) (n : Nat) :
    interpret_single now (u64str n) = .ok (60000 * (n : ℚ)) := by
  set cs := natDigitsAux (n + 1) n with hcs
  have hmem : ∀ c ∈ cs, ∃ d, d < 10 ∧ c = digitChar d :=
    fun c hc => natDigitsAux_mem (n + 1) n c hc
  have hdata : (u64str n).data = cs := rfl
  have hmap : cs.map asciiLower = cs := by
    rw [show cs.map asciiLower = cs.map id from List.map_congr_left (fun c hc => by
      obtain ⟨d, hd, hcd⟩ := hmem c hc
      subst hcd
      exact (digitChar_props d hd).2.1), List.map_id]
  have hfil : cs.filter (fun c => c ≠ ' ') = cs := by
    rw [List.filter_eq_self]
    intro c hc
    obtain ⟨d, hd, hcd⟩ := hmem c hc
    subst hcd
    simpa using (digitChar_props d hd).2.2.1
  have hlex : lexSingle (u64str n) = .ok [{ variant := .number, string := cs }] := by
    rw [lexSingle, hdata, hmap, hfil]
    exact lexGo_digits cs (natDigitsAux_ne_nil (n + 1) n (by omega)) (fun c hc => by
      obtain ⟨d, hd, hcd⟩ := hmem c hc
      subst hcd
      exact (digitChar_props d hd).1)
  have hsplit : splitFirst '.' cs = (cs, none) := splitFirst_none '.' cs (fun c hc => by
    obtain ⟨d, hd, hcd⟩ := hmem c hc
    subst hcd
    exact (digitChar_props d hd).2.2.2.1)
  have hall : cs.all Char.isDigit = true := by
    rw [List.all_eq_true]
    intro c hc
    obtain ⟨d, hd, hcd⟩ := hmem c hc
    subst hcd
    exact (digitChar_props d hd).2.2.2.2.1
  have hnum : parseNumber cs = some ((parseNatDigits cs : Nat) : ℚ) := by
    rw [parseNumber, hsplit]
    exact if_pos ⟨natDigitsAux_ne_nil (n + 1) n (by omega), hall⟩
  have hval : parseNatDigits cs = n := natDigitsAux_val (n + 1) n (by omega)
  have htokg : tokenOfGroup { variant := GroupKind.number, string := cs } =
      .ok (Token.number ((n : Nat) : ℚ)) := by
    show (match parseNumber cs with
      | some q => Except.ok (Token.number q)
      | none => Except.error (Err.InvalidNumber (String.mk cs))) =
      Except.ok (Token.number ((n : Nat) : ℚ))
    rw [hnum, hval]
  have htok : parseTokens [{ variant := GroupKind.number, string := cs }] =
      .ok [Token.number ((n : Nat) : ℚ)] := by
    rw [parseTokens, List.mapM_cons, htokg]
    simp only [exbind_ok, List.mapM_nil]
    rfl
  rw [interpret_single, hlex]
  simp only [exbind_ok]
  rw [htok]
  simp only [exbind_ok]
  rfl

/-- Whenever the Pratt parser succeeds, the unconsumed remainder is drawn
from the input tokens, and every duration atom of the produced expression is
a duration token of the input (or, in loop mode, an atom of the carried
left-hand side). -/
theorem pratt_atoms :
    ∀ (fuel : Nat) (mode : Option SExpr) (ts : List MToken) (minBp : Nat)
      (e : SExpr) (rest : List MToken),
      pratt fuel mode ts minBp = .ok (e, rest) →
      (∀ x, x ∈ rest → x ∈ ts) ∧
      (∀ s, s ∈ durAtoms e →
        MToken.value (.duration s) ∈ ts ∨ ∃ lhs, mode = some lhs ∧ s ∈ durAtoms lhs) := by
  intro fuel
  induction fuel with
  | zero =>
    intro mode ts minBp e rest h
    cases h
  | succ fuel ih =>
    intro mode ts minBp e rest h
    cases mode with
    | none =>
      cases ts with
      | nil => cases h
      | cons t ts1 =>
        cases t with
        | value v =>
          have h2 : pratt fuel (some (.atom v)) ts1 minBp = .ok (e, rest) := h
          obtain ⟨hsub, hatoms⟩ := ih (some (.atom v)) ts1 minBp e rest h2
          refine ⟨fun x hx => List.mem_cons_of_mem _ (hsub x hx), ?_⟩
          intro s hs
          rcases hatoms s hs with hmem | ⟨lhs, hlhs, hsl⟩
          · exact Or.inl (List.mem_cons_of_mem _ hmem)
          · cases hlhs
            cases v with
            | duration str =>
              simp only [durAtoms, List.mem_singleton] at hsl
              subst hsl
              exact Or.inl (List.mem_cons_self _ _)
            | int m => simp [durAtoms] at hsl
        | eof => cases h
        | op o =>
          cases o with
          | add => cases h
          | mul => cases h
          | rparen => cases h
          | lparen =>
            simp only [pratt] at h
            match hin : pratt fuel none ts1 0 with
            | .error err =>
              rw [hin] at h
              cases h
            | .ok (lhs, ts2) =>
              rw [hin] at h
              obtain ⟨hsub1, hatoms1⟩ := ih none ts1 0 lhs ts2 hin
              cases ts2 with
              | nil => cases h
              | cons t2 ts3 =>
                cases t2 with
                | op o2 =>
                  cases o2 with
                  | rparen =>
                    obtain ⟨hsub2, hatoms2⟩ := ih (some lhs) ts3 minBp e rest h
                    have hts3 : ∀ x, x ∈ ts3 → x ∈ MToken.op .lparen :: ts1 := by
                      intro x hx
                      exact List.mem_cons_of_mem _
                        (hsub1 x (List.mem_cons_of_mem _ hx))
                    refine ⟨fun x hx => hts3 x (hsub2 x hx), ?_⟩
                    intro s hs
                    rcases hatoms2 s hs with hmem | ⟨lhs2, hlhs2, hsl⟩
                    · exact Or.inl (hts3 _ hmem)
                    · cases hlhs2
                      rcases hatoms1 s hsl with hmem1 | ⟨lhs3, hnone, _⟩
                      · exact Or.inl (List.mem_cons_of_mem _ hmem1)
                      · cases hnone
                  | lparen => cases h
                  | add => cases h
                  | mul => cases h
                | value v2 => cases h
                | eof => cases h
    | some lhs =>
      cases ts with
      | nil =>
        cases h
        exact ⟨fun x hx => hx, fun s hs => Or.inr ⟨_, rfl, hs⟩⟩
      | cons t ts1 =>
        cases t with
        | eof =>
          cases h
          exact ⟨fun x hx => hx, fun s hs => Or.inr ⟨_, rfl, hs⟩⟩
        | value v => cases h
        | op o =>
          simp only [pratt] at h
          have hdone : (Except.ok (lhs, MToken.op o :: ts1) :
                Except Err (SExpr × List MToken)) = Except.ok (e, rest) →
              (∀ x, x ∈ rest → x ∈ MToken.op o :: ts1) ∧
              (∀ s, s ∈ durAtoms e →
                MToken.value (.duration s) ∈ MToken.op o :: ts1 ∨
                ∃ lhs2, some lhs = some lhs2 ∧ s ∈ durAtoms lhs2) := by
            intro hok
            cases hok
            exact ⟨fun x hx => hx, fun s hs => Or.inr ⟨_, rfl, hs⟩⟩
          cases o with
          | lparen => exact hdone h
          | rparen => exact hdone h
          | add =>
            simp only [bindingPower] at h
            by_cases hbp : 1 < minBp
            · rw [if_pos hbp] at h
              exact hdone h
            · rw [if_neg hbp] at h
              match hin : pratt fuel none ts1 2 with
              | .error .Empty => rw [hin] at h; cases h
              | .error .NaN => rw [hin] at h; cases h
              | .error (.InvalidCharacter c) => rw [hin] at h; cases h
              | .error (.InvalidNumber s) => rw [hin] at h; cases h
              | .error (.InvalidUnit s) => rw [hin] at h; cases h
              | .error (.SmallerThanMilli q) => rw [hin] at h; cases h
              | .error .ClashingFormats => rw [hin] at h; cases h
              | .error .TooManySeparators => rw [hin] at h; cases h
              | .error .Unknown => rw [hin] at h; cases h
              | .error .UnbalancedParens => rw [hin] at h; cases h
              | .error (.InvalidOp s) => rw [hin] at h; cases h
              | .error (.InvalidValue s) => rw [hin] at h; cases h
              | .error .MulDurations => rw [hin] at h; cases h
              | .ok (rhs, ts2) =>
                rw [hin] at h
                obtain ⟨hsub1, hatoms1⟩ := ih none ts1 2 rhs ts2 hin
                obtain ⟨hsub2, hatoms2⟩ := ih (some (.cons .add lhs rhs)) ts2 minBp e rest h
                refine ⟨fun x hx => List.mem_cons_of_mem _ (hsub1 x (hsub2 x hx)), ?_⟩
                intro s hs
                rcases hatoms2 s hs with hmem | ⟨lhs2, hlhs2, hsl⟩
                · exact Or.inl (List.mem_cons_of_mem _ (hsub1 _ hmem))
                · cases hlhs2
                  simp only [durAtoms, List.mem_append] at hsl
                  rcases hsl with hsll | hslr
                  · exact Or.inr ⟨lhs, rfl, hsll⟩
                  · rcases hatoms1 s hslr with hmem1 | ⟨lhs3, hnone, _⟩
                    · exact Or.inl (List.mem_cons_of_mem _ hmem1)
                    · cases hnone
          | mul =>
            simp only [bindingPower] at h
            by_cases hbp : 3 < minBp
            · rw [if_pos hbp] at h
              exact hdone h
            · rw [if_neg hbp] at h
              match hin : pratt fuel none ts1 4 with
              | .error .Empty => rw [hin] at h; cases h
              | .error .NaN => rw [hin] at h; cases h
              | .error (.InvalidCharacter c) => rw [hin] at h; cases h
              | .error (.InvalidNumber s) => rw [hin] at h; cases h
              | .error (.InvalidUnit s) => rw [hin] at h; cases h
              | .error (.SmallerThanMilli q) => rw [hin] at h; cases h
              | .error .ClashingFormats => rw [hin] at h; cases h
              | .error .TooManySeparators => rw [hin] at h; cases h
              | .error .Unknown => rw [hin] at h; cases h
              | .error .UnbalancedParens => rw [hin] at h; cases h
              | .error (.InvalidOp s) => rw [hin] at h; cases h
              | .error (.InvalidValue s) => rw [hin] at h; cases h
              | .error .MulDurations => rw [hin] at h; cases h
              | .ok (rhs, ts2) =>
                rw [hin] at h
                obtain ⟨hsub1, hatoms1⟩ := ih none ts1 4 rhs ts2 hin
                obtain ⟨hsub2, hatoms2⟩ := ih (some (.cons .mul lhs rhs)) ts2 minBp e rest h
                refine ⟨fun x hx => List.mem_cons_of_mem _ (hsub1 x (hsub2 x hx)), ?_⟩
                intro s hs
                rcases hatoms2 s hs with hmem | ⟨lhs2, hlhs2, hsl⟩
                · exact Or.inl (List.mem_cons_of_mem _ (hsub1 _ hmem))
                · cases hlhs2
                  simp only [durAtoms, List.mem_append] at hsl
                  rcases hsl with hsll | hslr
                  · exact Or.inr ⟨lhs, rfl, hsll⟩
                  · rcases hatoms1 s hslr with hmem1 | ⟨lhs3, hnone, _⟩
                    · exact Or.inl (List.mem_cons_of_mem _ hmem1)
                    · cases hnone

/-- Whether `eval_time` succeeds does not depend on the clock: only the value
of the final duration does. -/
theorem eval_time_ok_indep (now now2 : ℚ) (ts : List Token) (d : ℚ)
    (h : eval_time now ts = .ok d) : ∃ d2, eval_time now2 ts = .ok d2 := by
  rw [eval_time] at h ⊢
  cases hscan : evalTimeScan ts 0 (0, 0, 0) none with
  | error e =>
    rw [hscan] at h
    simp only [exbind_error] at h
    cases h
  | ok r =>
    rw [hscan] at h
    simp only [exbind_ok] at h ⊢
    cases hm : r.2 with
    | none =>
      simp only [hm] at h ⊢
      cases hna : new_12h_time r.1.1 r.1.2.1 r.1.2.2 Meridiem.ante with
      | none =>
        simp only [hna] at h
        cases h
      | some ta =>
        simp only [hna] at h ⊢
        cases hnp : new_12h_time r.1.1 r.1.2.1 r.1.2.2 Meridiem.post with
        | none =>
          simp only [hnp] at h
          cases h
        | some tp =>
          simp only [hnp] at h ⊢
          exact ⟨_, rfl⟩
    | some meri =>
      simp only [hm] at h ⊢
      cases hn : new_12h_time r.1.1 r.1.2.1 r.1.2.2 meri with
      | none =>
        simp only [hn] at h
        cases h
      | some t =>
        simp only [hn] at h ⊢
        exact ⟨_, rfl⟩

/-- Whether `interpret_single` succeeds does not depend on the clock. -/
theorem interpret_single_ok_indep (now now2 : ℚ) (s : String) (d : ℚ)
    (h : interpret_single now s = .ok d) : ∃ d2, interpret_single now2 s = .ok d2 := by
  rw [interpret_single] at h ⊢
  cases hg : lexSingle s with
  | error e =>
    rw [hg] at h
    simp only [exbind_error] at h
    cases h
  | ok gs =>
    rw [hg] at h
    simp only [exbind_ok] at h ⊢
    cases ht : parseTokens gs with
    | error e =>
      rw [ht] at h
      simp only [exbind_error] at h
      cases h
    | ok ts =>
      rw [ht] at h
      simp only [exbind_ok] at h ⊢
      rw [evalTokens] at h ⊢
      by_cases he : ts.isEmpty = true
      · rw [if_pos he] at h
        cases h
      · rw [if_neg he] at h ⊢
        cases hf : get_tokens_format ts with
        | singleNumber =>
          simp only [hf] at h
          exact ⟨d, h⟩
        | units =>
          simp only [hf] at h
          exact ⟨d, h⟩
        | time =>
          simp only [hf] at h
          obtain ⟨d2, h2⟩ := eval_time_ok_indep now now2 ts d h
          exact ⟨d2, h2⟩

/-- C7: every literal of a sequence produced by `interpret_multi` — duration
atoms validated at parse time, bare integer atoms, and the digit texts
minted by `Int * Int` — parses under `interpret_single` at any later clock,
so the `expect("input has already been validated")` in `MultiTimer::next`
cannot fire. -/
theorem c7_literals_valid :
    ∀ (input : String) (now now2 : ℚ) (lits : List String) (s : String),
      interpret_multi now input = .ok lits → s ∈ lits →
      ∃ d, interpret_single now2 s = .ok d := by
  intro input now now2 lits s him hmem
  rw [interpret_multi] at him
  match hp : mparse now input with
  | .error e1 =>
    rw [hp] at him
    simp only [exbind_error] at him
    cases him
  | .ok e =>
    rw [hp] at him
    simp only [exbind_ok] at him
    match hev : evalM e with
    | .error e2 =>
      rw [hev] at him
      simp only [exbind_error] at him
      cases him
    | .ok dd =>
      rw [hev] at him
      simp only [exbind_ok] at him
      cases him
      rcases evalM_lits e dd hev s hmem with hatom | ⟨n, rfl⟩
      · rw [mparse] at hp
        match hv : validateTokens now (lexMulti input) with
        | .error e3 =>
          rw [hv] at hp
          simp only [exbind_error] at hp
          cases hp
        | .ok u =>
          rw [hv] at hp
          simp only [exbind_ok] at hp
          match hpr : pratt (2 * (lexMulti input).length + 4) none (lexMulti input) 0 with
          | .error e4 =>
            rw [hpr] at hp
            simp only [exbind_error] at hp
            cases hp
          | .ok p =>
            rw [hpr] at hp
            simp only [exbind_ok] at hp
            by_cases hif : mpeek p.2 = .eof
            · rw [if_pos hif] at hp
              have hpe : p.1 = e := by
                cases hp
                rfl
              obtain ⟨hsub, hatoms⟩ :=
                pratt_atoms _ none (lexMulti input) 0 p.1 p.2 (by rw [hpr])
              rw [hpe] at hatoms
              rcases hatoms s hatom with htokmem | ⟨lhs, hnone, _⟩
              · have hv2 : validateTokens now (lexMulti input) = .ok () := by
                  cases u
                  exact hv
                obtain ⟨dv, hdv⟩ := validateTokens_ok now (lexMulti input) hv2 s htokmem
                exact interpret_single_ok_indep now now2 s dv hdv
              · cases hnone
            · rw [if_neg hif] at hp
              cases hp
      · exact ⟨_, interpret_single_u64str now2 n⟩

/-- C7 witness: `c7_literals_valid` on `"3*2m"` and its literal `"2m"`,
re-parsed at a different clock. -/
theorem c7_literals_valid_witness :
    interpret_multi 0 "3*2m" = .ok ["2m", "2m", "2m"] ∧
    ∃ d, interpret_single 3600000 "2m" = .ok d :=
  ⟨rfl, c7_literals_valid "3*2m" 0 3600000 ["2m", "2m", "2m"] "2m" rfl (by decide)⟩

end Minti
